import Mathlib

/-!
Verification of the lazy-sequence library in homeworks/iterators/iterator.py.

The Python file defines five adapters, each as an explicit iterator object
and/or a generator function:
  ChainSequences / chain_sequences, ZipSequences / zip_sequences,
  generate_primes, generate_combinations, FlattenIterator /
  flatten_iterator_generator.

Shallow-embedding conventions used throughout:
  - A Python sequence is a Lean List; an iterator over a sequence is the
    list of its not-yet-consumed elements.
  - An iterator object is a state type together with a step function
    step : state -> Option elem x state.  step s = (some a, s2) means
    __next__ returned a and mutated the object to s2; step s = (none, s2)
    means __next__ raised StopIteration, leaving the object in state s2.
  - Consuming a cursor is runCursor step fuel s: fuel bounds the number of
    advance requests, and the run stops early at the first StopIteration.
  - Generator functions that plainly terminate are embedded as the list
    of all elements they yield.
-/

/-- Consumes a pull-based cursor: asks for at most fuel elements and stops at
the first exhaustion signal, returning the list of produced elements. -/
def runCursor {σ α : Type} (step : σ → Option α × σ) : Nat → σ → List α
  | 0, _ => []
  | fuel + 1, s =>
    match step s with
    | (none, _) => []
    | (some a, s') => a :: runCursor step fuel s'

/-! ## Task 1: ChainSequences (iterator.py lines 6-26), chain_sequences (29-32) -/

/-- State of a ChainSequences object: the tuple of input sequences, the field
current_sequence_index, and the remaining elements of current_iterator. -/
structure ChainState (α : Type) where
  sequences : List (List α)
  current_sequence_index : Nat
  current_iterator : List α
deriving Repr, DecidableEq

/-- Embeds ChainSequences.__next__ (lines 17-26): return the next element of
the current iterator if it has one; otherwise repeatedly advance
current_sequence_index, raising StopIteration once it reaches the number of
sequences and otherwise opening an iterator over the next sequence. -/
def chainNext {α : Type} : ChainState α → Option α × ChainState α
  | ⟨seqs, idx, a :: rest⟩ => (some a, ⟨seqs, idx, rest⟩)
  | ⟨seqs, idx, []⟩ =>
    if h : idx + 1 < seqs.length then
      chainNext ⟨seqs, idx + 1, seqs.get ⟨idx + 1, h⟩⟩
    else (none, ⟨seqs, idx + 1, []⟩)
termination_by s => s.sequences.length - s.current_sequence_index
decreasing_by simp; omega

/-- Embeds ChainSequences.__init__ (lines 9-12): index 0, and an iterator over
the first sequence when there is one, else an empty iterator. -/
def ChainSequences.init {α : Type} (sequences : List (List α)) : ChainState α :=
  ⟨sequences, 0, match sequences with | [] => [] | s0 :: _ => s0⟩

/-- Consuming a freshly constructed ChainSequences object. -/
def ChainSequences.run {α : Type} (fuel : Nat) (sequences : List (List α)) : List α :=
  runCursor chainNext fuel (ChainSequences.init sequences)

/-- Embeds the generator function chain_sequences (lines 29-32): for each
sequence in order, yield all of its elements. -/
def chain_sequences {α : Type} : List (List α) → List α
  | [] => []
  | seq :: rest => seq ++ chain_sequences rest

/-- Specification of a ChainSequences state: the elements it has yet to
produce are the rest of the current iterator followed by all later sequences. -/
def chainSpec {α : Type} (s : ChainState α) : List α :=
  s.current_iterator ++ (s.sequences.drop (s.current_sequence_index + 1)).flatten

/-! ## Task 2: ZipSequences (lines 36-54) and zip_sequences (57-67)

ZipSequences.__next__ and the loop body of zip_sequences are the same code:
walk the component iterators in order appending next(it) to result; if every
component yields, return the tuple of results, and if one raises
StopIteration, propagate it (the components before the failing one have
already been advanced, the failing and later ones are untouched). -/

/-- Embeds the shared advance logic of ZipSequences.__next__ (lines 47-54) and
one iteration of the while-loop of zip_sequences (lines 60-67).  Note that for
zero components the for-loop body runs zero times and the empty tuple is
returned: the step is productive, not exhausting. -/
def zipAdvance {α : Type} : List (List α) → Option (List α) × List (List α)
  | [] => (some [], [])
  | [] :: rest => (none, [] :: rest)
  | (a :: t) :: rest =>
    match zipAdvance rest with
    | (some vs, rest') => (some (a :: vs), t :: rest')
    | (none, rest') => (none, t :: rest')

/-- Consuming a freshly constructed ZipSequences object (its state after
__init__, lines 39-42, is the list of component iterators). -/
def ZipSequences.run {α : Type} (fuel : Nat) (sequences : List (List α)) : List (List α) :=
  runCursor zipAdvance fuel sequences

/-- Consuming the zip_sequences generator (lines 57-67), whose loop body is
the same advance logic. -/
def zip_sequencesRun {α : Type} (fuel : Nat) (sequences : List (List α)) : List (List α) :=
  runCursor zipAdvance fuel sequences

/-- Heads and tails of a list of lists when every one is non-empty. -/
def allHeads {α : Type} : List (List α) → Option (List α × List (List α))
  | [] => some ([], [])
  | [] :: _ => none
  | (a :: t) :: rest =>
    match allHeads rest with
    | some (hs, ts) => some (a :: hs, t :: ts)
    | none => none

/-- Helper for zipTranspose, recursing on the first component. -/
def zipTransposeGo {α : Type} : List α → List (List α) → List (List α)
  | [], _ => []
  | a :: t, rest =>
    match allHeads rest with
    | some (hs, ts) => (a :: hs) :: zipTransposeGo t ts
    | none => []

/-- Specification of zipping a non-empty family: the j-th output row is the
list of j-th elements, and rows stop at the first exhausted component. -/
def zipTranspose {α : Type} : List (List α) → List (List α)
  | [] => []
  | first :: rest => zipTransposeGo first rest

/-- The ordered selection of the j-th element of every component, defined when
every component has one (the j-th output tuple of the zip specification). -/
def selectAll {α : Type} : List (List α) → Nat → Option (List α)
  | [], _ => some []
  | l :: rest, j =>
    match l[j]?, selectAll rest j with
    | some a, some t => some (a :: t)
    | _, _ => none

/-- Python min(len(s) for s in sequences) over a non-empty list (0 for []). -/
def minLen {α : Type} : List (List α) → Nat
  | [] => 0
  | first :: rest => rest.foldl (fun m l => min m l.length) first.length

/-! ## Task 3: generate_primes (lines 71-94)

The Python sieve uses int(math.sqrt(n)), modelled here as Nat.sqrt n
(math.sqrt is exact on every integer whose square root fits a double's
mantissa, and a larger bound only adds iterations that strike nothing).
Reads is_prime[i] are modelled as getD i false; every read index is in
bounds, so the default is never consulted. -/

/-- Python range(start, stop, step) for step > 0, as a list of naturals. -/
def pyRange (start stop step : Nat) : List Nat :=
  List.range' start ((stop - start + step - 1) / step) step

/-- Embeds the inner loop of lines 89-90: strike every index in js. -/
def strikeList (is_prime : List Bool) (js : List Nat) : List Bool :=
  js.foldl (fun acc j => acc.set j false) is_prime

/-- Embeds lines 84-85: a marker array of size n, entries 0 and 1 cleared. -/
def sieveInit (n : Nat) : List Bool :=
  ((List.replicate n true).set 0 false).set 1 false

/-- Embeds the body of the outer loop, lines 87-90: if is_prime[i], strike
every j in range(i*i, n, i). -/
def sieveStep (n : Nat) (is_prime : List Bool) (i : Nat) : List Bool :=
  if is_prime.getD i false then strikeList is_prime (pyRange (i * i) n i) else is_prime

/-- The sieve of lines 84-90: the marker array after the full outer loop
for i in range(2, int(math.sqrt(n)) + 1). -/
def sieve (n : Nat) : List Bool :=
  (pyRange 2 (Nat.sqrt n + 1) 1).foldl (sieveStep n) (sieveInit n)

/-- Embeds generate_primes (lines 71-94): empty for n <= 1; otherwise yield 1,
stop there when n <= 2, and otherwise yield every i in range(2, n) whose
sieve entry is still set. -/
def generate_primes (n : Nat) : List Nat :=
  if n ≤ 1 then []
  else if n ≤ 2 then [1]
  else 1 :: (pyRange 2 n 1).filter (fun i => (sieve n).getD i false)

/-! ## Task 4: generate_combinations (lines 98-116) -/

mutual
/-- Embeds the inner generator _combine(start, current) of lines 106-114:
yield tuple(current) once the selection has length k, and otherwise, for each
i in range(start, n), extend the selection with sequence[i] and recurse with
start i+1. -/
def combine {α : Type} (sequence : List α) (k : Nat) (start : Nat) (current : List α) :
    List (List α) :=
  if current.length = k then [current]
  else combineFor sequence k start current
termination_by (sequence.length + 1 - start) * 2 + 1
/-- Embeds the for-loop of lines 111-114 of _combine, unrolled from index i:
the combinations contributed by choosing sequence[i] next, followed by those
contributed by the later loop iterations. -/
def combineFor {α : Type} (sequence : List α) (k : Nat) (i : Nat) (current : List α) :
    List (List α) :=
  if h : i < sequence.length then
    combine sequence k (i + 1) (current ++ [sequence.get ⟨i, h⟩]) ++
      combineFor sequence k (i + 1) current
  else []
termination_by (sequence.length + 1 - i) * 2
end

/-- Embeds generate_combinations (lines 98-116): empty for k > n or k <= 0
(k is a Python int, so it may be negative), else the full backtracking
enumeration.  Inside the guarded branch 0 < k, so k.toNat is faithful. -/
def generate_combinations {α : Type} (sequence : List α) (k : Int) : List (List α) :=
  if k > (sequence.length : Int) ∨ k ≤ 0 then []
  else combine sequence k.toNat 0 []

/-- Specification (from the spec text): every strictly increasing
index-selection of size k, i.e. every k-element subsequence preserving the
original relative order, in lexicographic order of the chosen indices: first
all selections containing index 0 (recursively in lexicographic order), then
all selections avoiding it. -/
def lexCombinations {α : Type} : Nat → List α → List (List α)
  | 0, _ => [[]]
  | _ + 1, [] => []
  | k + 1, a :: rest =>
    (lexCombinations k rest).map (fun c => a :: c) ++ lexCombinations (k + 1) rest

/-! ## Task 5: FlattenIterator (lines 120-148), flatten_iterator_generator (151-157)

Python values reaching the flatten adapters are modelled by PyVal: the
adapters inspect elements only through isinstance(element, list), which holds
exactly for the PyVal.pylist constructor; ints, strings and tuples are leaves
even though tuples and strings are themselves sequences. -/

/-- A Python value as far as the flatten adapters can observe it: an int, a
string, a tuple, or a list (the only container isinstance(x, list) accepts). -/
inductive PyVal where
  | int : Int → PyVal
  | str : String → PyVal
  | tuple : List PyVal → PyVal
  | pylist : List PyVal → PyVal

/-- Embeds flatten_iterator_generator (lines 151-157): for each element of
the list, recurse into it if it is a list, else yield it. -/
def flatten_iterator_generator : List PyVal → List PyVal
  | [] => []
  | PyVal.pylist l :: rest => flatten_iterator_generator l ++ flatten_iterator_generator rest
  | e :: rest => e :: flatten_iterator_generator rest

/-- Specification (from the spec text): the leaf elements of a nested
structure in depth-first, left-to-right order (a leaf being any element that
is not a list). -/
def dfsLeaves : List PyVal → List PyVal
  | [] => []
  | PyVal.pylist l :: rest => dfsLeaves l ++ dfsLeaves rest
  | e :: rest => e :: dfsLeaves rest

/-- A TraversalFrame of FlattenIterator: (container reference, next index). -/
abbrev FlatFrame := List PyVal × Nat

/-- Size of a nested-list value for termination purposes: a list element
costs 2 plus its contents, any other element costs 2, the end costs 1. -/
def pyListMeasure : List PyVal → Nat
  | [] => 1
  | PyVal.pylist l :: rest => 2 + pyListMeasure l + pyListMeasure rest
  | _ :: rest => 2 + pyListMeasure rest

/-- Termination measure for FlattenIterator.__next__: total size of the not
yet visited parts of the stacked containers. -/
def stackMeasure : List FlatFrame → Nat
  | [] => 0
  | (l, i) :: rest => pyListMeasure (l.drop i) + stackMeasure rest

/-- Embeds FlattenIterator.__next__ (lines 129-148), with the stack growing
at the head (Python appends at the tail and inspects stack[-1]): pop frames
whose index is past the end; otherwise increment the frame's index and either
push a frame for a list element or return a non-list element. -/
def flattenNext : List FlatFrame → Option PyVal × List FlatFrame
  | [] => (none, [])
  | (current_list, index) :: rest =>
    if h : index < current_list.length then
      match hel : current_list.get ⟨index, h⟩ with
      | PyVal.pylist l => flattenNext ((l, 0) :: (current_list, index + 1) :: rest)
      | element => (some element, (current_list, index + 1) :: rest)
    else
      flattenNext rest
termination_by st => stackMeasure st
decreasing_by
  · rename_i cl
    have hd : cl.drop i = cl.get ⟨i, h⟩ :: cl.drop (i + 1) :=
      List.drop_eq_getElem_cons h
    rw [hel] at hd
    simp [stackMeasure, hd, pyListMeasure]
    omega
  · have hpos : 0 < pyListMeasure (l.drop i) := by
      cases l.drop i with
      | nil => simp [pyListMeasure]
      | cons e r => cases e <;> simp [pyListMeasure]
    simp [stackMeasure]
    omega

/-- Embeds FlattenIterator.__init__ (lines 123-124). -/
def FlattenIterator.init (nested_list : List PyVal) : List FlatFrame :=
  [(nested_list, 0)]

/-- Consuming a freshly constructed FlattenIterator. -/
def FlattenIterator.run (fuel : Nat) (nested_list : List PyVal) : List PyVal :=
  runCursor flattenNext fuel (FlattenIterator.init nested_list)

/-- Specification of a FlattenIterator state: the leaves of the unvisited
part of each stacked frame, innermost (top) first. -/
def stackLeaves : List FlatFrame → List PyVal
  | [] => []
  | (l, i) :: rest => flatten_iterator_generator (l.drop i) ++ stackLeaves rest

/-! # Theorems -/

/-- Generic cursor-consumption lemma: if an invariant I is preserved and a
specification function spec satisfies spec s = a :: spec s2 on every
productive step and spec s = [] on every exhausting step, then running the
cursor with enough fuel produces exactly spec s. -/
theorem runCursor_eq_spec {σ α : Type} (step : σ → Option α × σ) (spec : σ → List α)
    (I : σ → Prop)
    (hsome : ∀ s a s', I s → step s = (some a, s') → I s' ∧ spec s = a :: spec s')
    (hnone : ∀ s s', I s → step s = (none, s') → spec s = []) :
    ∀ (fuel : Nat) (s : σ), I s → (spec s).length ≤ fuel → runCursor step fuel s = spec s := by
  intro fuel
  induction fuel with
  | zero =>
    intro s _ hlen
    have hnil : spec s = [] := List.eq_nil_of_length_eq_zero (Nat.le_zero.mp hlen)
    simp [runCursor, hnil]
  | succ n ih =>
    intro s hI hlen
    rcases hstep : step s with ⟨o, s'⟩
    cases o with
    | none =>
      have := hnone s s' hI hstep
      simp [runCursor, hstep, this]
    | some a =>
      obtain ⟨hI', hspec⟩ := hsome s a s' hI hstep
      have hlen' : (spec s').length ≤ n := by
        rw [hspec] at hlen
        simpa using hlen
      simp [runCursor, hstep, hspec, ih s' hI' hlen']

/-! ## Chain lemmas -/

theorem chain_sequences_eq_flatten {α : Type} (sequences : List (List α)) :
    chain_sequences sequences = sequences.flatten := by
  induction sequences with
  | nil => rfl
  | cons s rest ih => simp [chain_sequences, ih]

theorem chainSpec_init {α : Type} (sequences : List (List α)) :
    chainSpec (ChainSequences.init sequences) = sequences.flatten := by
  cases sequences with
  | nil => rfl
  | cons s0 rest => simp [ChainSequences.init, chainSpec]

theorem chainNext_some {α : Type} (s : ChainState α) (a : α) (s' : ChainState α)
    (h : chainNext s = (some a, s')) : chainSpec s = a :: chainSpec s' := by
  induction s using chainNext.induct with
  | case1 seqs idx a0 rest =>
    rw [chainNext] at h
    obtain ⟨ha, hs⟩ := Prod.mk.injEq .. ▸ h
    cases ha
    cases hs
    simp [chainSpec]
  | case2 seqs idx hlt ih =>
    rw [chainNext] at h
    simp only [hlt, dite_true] at h
    have heq := ih h
    have hdrop : seqs.drop (idx + 1) = seqs.get ⟨idx + 1, hlt⟩ :: seqs.drop (idx + 1 + 1) :=
      List.drop_eq_getElem_cons hlt
    simp only [chainSpec, hdrop, List.flatten_cons, List.nil_append] at heq ⊢
    simpa using heq
  | case3 seqs idx hlt =>
    rw [chainNext] at h
    simp [hlt] at h

theorem chainNext_none {α : Type} (s : ChainState α) (s' : ChainState α)
    (h : chainNext s = (none, s')) : chainSpec s = [] := by
  induction s using chainNext.induct with
  | case1 seqs idx a0 rest =>
    rw [chainNext] at h
    simp at h
  | case2 seqs idx hlt ih =>
    rw [chainNext] at h
    simp only [hlt, dite_true] at h
    have heq := ih h
    have hdrop : seqs.drop (idx + 1) = seqs.get ⟨idx + 1, hlt⟩ :: seqs.drop (idx + 1 + 1) :=
      List.drop_eq_getElem_cons hlt
    simp only [chainSpec, hdrop, List.flatten_cons, List.nil_append] at heq ⊢
    simpa using heq
  | case3 seqs idx hlt =>
    rw [chainNext] at h
    simp only [hlt, dite_false] at h
    have hle : seqs.length ≤ idx + 1 := by omega
    simp [chainSpec, List.drop_eq_nil_of_le hle]

/-- Terminal-state invariant for ChainSequences: an exhausting call leaves the
sequences unchanged, the current iterator empty, and the index past the end. -/
theorem chainNext_none_state {α : Type} (s : ChainState α) (s' : ChainState α)
    (h : chainNext s = (none, s')) :
    s'.sequences = s.sequences ∧ s'.current_iterator = [] ∧
      s'.sequences.length ≤ s'.current_sequence_index := by
  induction s using chainNext.induct with
  | case1 seqs idx a0 rest =>
    rw [chainNext] at h
    simp at h
  | case2 seqs idx hlt ih =>
    rw [chainNext] at h
    simp only [hlt, dite_true] at h
    simpa using ih h
  | case3 seqs idx hlt =>
    rw [chainNext] at h
    simp only [hlt, dite_false, Prod.mk.injEq] at h
    obtain ⟨-, hs⟩ := h
    subst hs
    simp at hlt ⊢
    omega

/-- Exhaustion of ChainSequences is idempotent: from any state whose iterator
is empty and whose index is past the end, the next call exhausts again. -/
theorem chainNext_idempotent {α : Type} (s s' : ChainState α)
    (h : chainNext s = (none, s')) : (chainNext s').1 = none := by
  obtain ⟨-, hcur, hidx⟩ := chainNext_none_state s s' h
  rcases s' with ⟨seqs', idx', cur'⟩
  simp only at hcur hidx
  subst hcur
  rw [chainNext]
  have : ¬ (idx' + 1 < seqs'.length) := by omega
  simp [this]

/-- Running a ChainSequences object with enough fuel produces the
concatenation of its input sequences. -/
theorem chain_run_eq {α : Type} (sequences : List (List α)) (fuel : Nat)
    (hfuel : sequences.flatten.length ≤ fuel) :
    ChainSequences.run fuel sequences = sequences.flatten := by
  have := runCursor_eq_spec chainNext chainSpec (fun _ => True)
    (fun s a s' _ h => ⟨trivial, chainNext_some s a s' h⟩)
    (fun s s' _ h => chainNext_none s s' h)
    fuel (ChainSequences.init sequences) trivial
    (by rw [chainSpec_init]; exact hfuel)
  rw [ChainSequences.run, this, chainSpec_init]

/-! ## Zip lemmas -/

theorem zipAdvance_length {α : Type} (its : List (List α)) :
    (zipAdvance its).2.length = its.length := by
  induction its with
  | nil => simp [zipAdvance]
  | cons l rest ih =>
    cases l with
    | nil => simp [zipAdvance]
    | cons a t =>
      rw [zipAdvance]
      rcases h : zipAdvance rest with ⟨o, rest'⟩
      rw [h] at ih
      cases o <;> simpa using ih

theorem zipAdvance_of_allHeads_some {α : Type} (its : List (List α))
    (hs : List α) (ts : List (List α)) (h : allHeads its = some (hs, ts)) :
    zipAdvance its = (some hs, ts) := by
  induction its generalizing hs ts with
  | nil =>
    simp [allHeads] at h
    simp [zipAdvance, h]
  | cons l rest ih =>
    cases l with
    | nil => simp [allHeads] at h
    | cons a t =>
      rw [allHeads] at h
      rcases hrec : allHeads rest with - | ⟨hs', ts'⟩
      · simp [hrec] at h
      · rw [hrec] at h
        simp at h
        obtain ⟨hh, ht⟩ := h
        rw [zipAdvance, ih hs' ts' hrec, ← hh, ← ht]

theorem zipAdvance_fst_none_of_allHeads_none {α : Type} (its : List (List α))
    (h : allHeads its = none) : (zipAdvance its).1 = none := by
  induction its with
  | nil => simp [allHeads] at h
  | cons l rest ih =>
    cases l with
    | nil => simp [zipAdvance]
    | cons a t =>
      rw [allHeads] at h
      rcases hrec : allHeads rest with - | ⟨hs', ts'⟩
      · rw [zipAdvance]
        rcases hz : zipAdvance rest with ⟨o, rest'⟩
        have := ih hrec
        rw [hz] at this
        cases o with
        | none => simp
        | some vs => simp at this
      · rw [hrec] at h
        simp at h

theorem allHeads_some_of_zipAdvance_some {α : Type} (its : List (List α))
    (vs : List α) (ts : List (List α)) (h : zipAdvance its = (some vs, ts)) :
    allHeads its = some (vs, ts) := by
  rcases hah : allHeads its with - | ⟨hs', ts'⟩
  · have := zipAdvance_fst_none_of_allHeads_none its hah
    rw [h] at this
    simp at this
  · have := zipAdvance_of_allHeads_some its hs' ts' hah
    rw [h] at this
    simp at this
    rw [this.1, this.2]

theorem allHeads_none_iff {α : Type} (its : List (List α)) :
    allHeads its = none ↔ ∃ l ∈ its, l = [] := by
  induction its with
  | nil => simp [allHeads]
  | cons l rest ih =>
    cases l with
    | nil => simp [allHeads]
    | cons a t =>
      rw [allHeads]
      rcases hrec : allHeads rest with - | ⟨hs', ts'⟩
      · simpa [hrec] using ih
      · rw [hrec] at ih
        simp at ih
        simp [ih]

theorem zipAdvance_none_state {α : Type} (its its' : List (List α))
    (h : zipAdvance its = (none, its')) : ∃ l ∈ its', l = [] := by
  induction its generalizing its' with
  | nil => simp [zipAdvance] at h
  | cons l rest ih =>
    cases l with
    | nil =>
      rw [zipAdvance] at h
      simp at h
      exact ⟨[], by simp [← h]⟩
    | cons a t =>
      rw [zipAdvance] at h
      rcases hz : zipAdvance rest with ⟨o, rest'⟩
      rw [hz] at h
      cases o with
      | none =>
        simp at h
        obtain ⟨l0, hl0, hnil⟩ := ih rest' hz
        exact ⟨l0, by simp [← h, hl0], hnil⟩
      | some vs => simp at h

theorem zipAdvance_fst_none_of_mem_nil {α : Type} (its : List (List α))
    (h : ∃ l ∈ its, l = []) : (zipAdvance its).1 = none :=
  zipAdvance_fst_none_of_allHeads_none its ((allHeads_none_iff its).mpr h)

/-- Exhaustion of the zip advance logic is idempotent: an exhausting call
leaves some component exhausted, so the next call exhausts too. -/
theorem zipAdvance_idempotent {α : Type} (its its' : List (List α))
    (h : zipAdvance its = (none, its')) : (zipAdvance its').1 = none :=
  zipAdvance_fst_none_of_mem_nil its' (zipAdvance_none_state its its' h)

theorem zipTranspose_some_step {α : Type} (its : List (List α)) (vs : List α)
    (ts : List (List α)) (hne : its ≠ []) (h : zipAdvance its = (some vs, ts)) :
    zipTranspose its = vs :: zipTranspose ts := by
  have hah := allHeads_some_of_zipAdvance_some its vs ts h
  cases its with
  | nil => simp at hne
  | cons first rest =>
    cases first with
    | nil => simp [allHeads] at hah
    | cons a t =>
      rw [allHeads] at hah
      rcases hrec : allHeads rest with - | ⟨hs', ts'⟩
      · simp [hrec] at hah
      · rw [hrec] at hah
        simp at hah
        obtain ⟨hv, ht⟩ := hah
        rw [zipTranspose, zipTransposeGo, hrec, ← hv, ← ht]
        rfl

theorem zipTranspose_none_step {α : Type} (its : List (List α))
    (ts : List (List α)) (hne : its ≠ []) (h : zipAdvance its = (none, ts)) :
    zipTranspose its = [] := by
  cases its with
  | nil => simp at hne
  | cons first rest =>
    cases first with
    | nil => rw [zipTranspose, zipTransposeGo]
    | cons a t =>
      rcases hrec : allHeads rest with - | ⟨hs', ts'⟩
      · rw [zipTranspose, zipTransposeGo, hrec]
      · have : allHeads ((a :: t) :: rest) = some (a :: hs', t :: ts') := by
          rw [allHeads, hrec]
        have := zipAdvance_of_allHeads_some _ _ _ this
        rw [h] at this
        simp at this

theorem selectAll_zero_of_allHeads_some {α : Type} (its : List (List α))
    (hs : List α) (ts : List (List α)) (h : allHeads its = some (hs, ts)) :
    selectAll its 0 = some hs := by
  induction its generalizing hs ts with
  | nil =>
    simp [allHeads] at h
    simp [selectAll, h]
  | cons l rest ih =>
    cases l with
    | nil => simp [allHeads] at h
    | cons a t =>
      rw [allHeads] at h
      rcases hrec : allHeads rest with - | ⟨hs', ts'⟩
      · simp [hrec] at h
      · rw [hrec] at h
        simp at h
        rw [selectAll, ih hs' ts' hrec]
        simp [← h.1]

theorem selectAll_succ_of_allHeads_some {α : Type} (its : List (List α))
    (hs : List α) (ts : List (List α)) (h : allHeads its = some (hs, ts)) (j : Nat) :
    selectAll its (j + 1) = selectAll ts j := by
  induction its generalizing hs ts with
  | nil =>
    simp [allHeads] at h
    rw [h.2]
    simp [selectAll]
  | cons l rest ih =>
    cases l with
    | nil => simp [allHeads] at h
    | cons a t =>
      rw [allHeads] at h
      rcases hrec : allHeads rest with - | ⟨hs', ts'⟩
      · simp [hrec] at h
      · rw [hrec] at h
        simp at h
        rw [selectAll, ih hs' ts' hrec, ← h.2, selectAll]
        simp

theorem selectAll_of_allHeads_none {α : Type} (its : List (List α))
    (h : allHeads its = none) (j : Nat) : selectAll its j = none := by
  obtain ⟨l0, hmem, hnil⟩ := (allHeads_none_iff its).mp h
  subst hnil
  clear h
  induction its with
  | nil => simp at hmem
  | cons l rest ih =>
    rcases List.mem_cons.mp hmem with hl | hl
    · subst hl
      simp [selectAll]
    · rw [selectAll, ih hl]
      rcases l[j]? with - | a <;> simp

theorem zipTransposeGo_getElem {α : Type} (first : List α) :
    ∀ (rest : List (List α)) (j : Nat),
      (zipTransposeGo first rest)[j]? = selectAll (first :: rest) j := by
  induction first with
  | nil =>
    intro rest j
    simp [zipTransposeGo, selectAll]
  | cons a t ih =>
    intro rest j
    rw [zipTransposeGo]
    rcases hrec : allHeads rest with - | ⟨hs, ts⟩
    · rw [selectAll, selectAll_of_allHeads_none rest hrec j]
      rcases (a :: t)[j]? with - | x <;> simp
    · cases j with
      | zero =>
        rw [selectAll, selectAll_zero_of_allHeads_some rest hs ts hrec]
        simp
      | succ j =>
        rw [selectAll, selectAll_succ_of_allHeads_some rest hs ts hrec j]
        simpa [selectAll] using ih ts j

theorem zipTranspose_getElem {α : Type} (first : List α) (rest : List (List α)) (j : Nat) :
    (zipTranspose (first :: rest))[j]? = selectAll (first :: rest) j :=
  zipTransposeGo_getElem first rest j

theorem selectAll_eq_none_iff {α : Type} (its : List (List α)) (j : Nat) :
    selectAll its j = none ↔ ∃ l ∈ its, l.length ≤ j := by
  induction its with
  | nil => simp [selectAll]
  | cons l rest ih =>
    rw [selectAll]
    constructor
    · intro h
      rcases hlj : l[j]? with - | a
      · exact ⟨l, by simp, by simpa using List.getElem?_eq_none_iff.mp hlj⟩
      · rcases hsel : selectAll rest j with - | t
        · obtain ⟨l0, hmem, hlen⟩ := ih.mp hsel
          exact ⟨l0, by simp [hmem], hlen⟩
        · rw [hlj, hsel] at h
          simp at h
    · rintro ⟨l0, hmem, hlen⟩
      rcases List.mem_cons.mp hmem with hl | hl
      · subst hl
        rw [List.getElem?_eq_none hlen]
      · rw [ih.mpr ⟨l0, hl, hlen⟩]
        rcases l[j]? with - | a <;> simp

theorem foldl_min_length_lt_iff {α : Type} (xs : List (List α)) :
    ∀ (b j : Nat), (j < xs.foldl (fun m l => min m l.length) b ↔
      j < b ∧ ∀ l ∈ xs, j < l.length) := by
  induction xs with
  | nil => simp
  | cons x rest ih =>
    intro b j
    rw [List.foldl_cons, ih]
    simp only [Nat.lt_min, List.mem_cons]
    constructor
    · rintro ⟨⟨h1, h2⟩, h3⟩
      refine ⟨h1, ?_⟩
      intro l hl
      rcases hl with hl | hl
      · subst hl
        exact h2
      · exact h3 l hl
    · rintro ⟨h1, h2⟩
      exact ⟨⟨h1, h2 x (Or.inl rfl)⟩, fun l hl => h2 l (Or.inr hl)⟩

theorem minLen_lt_iff {α : Type} (first : List α) (rest : List (List α)) (j : Nat) :
    j < minLen (first :: rest) ↔ ∀ l ∈ first :: rest, j < l.length := by
  rw [minLen, foldl_min_length_lt_iff]
  simp

theorem getElem?_eq_none_iff_len {β : Type} (l : List β) (j : Nat) :
    l[j]? = none ↔ l.length ≤ j := by
  constructor
  · intro h
    by_contra hc
    push_neg at hc
    rw [List.getElem?_eq_getElem hc] at h
    cases h
  · exact List.getElem?_eq_none

theorem zipTranspose_length {α : Type} (first : List α) (rest : List (List α)) :
    (zipTranspose (first :: rest)).length = minLen (first :: rest) := by
  have key : ∀ j, j < (zipTranspose (first :: rest)).length ↔ j < minLen (first :: rest) := by
    intro j
    rw [← Nat.not_le, ← getElem?_eq_none_iff_len (zipTranspose (first :: rest)) j,
      zipTranspose_getElem, minLen_lt_iff, selectAll_eq_none_iff]
    push_neg
    simp
  have h1 := key (zipTranspose (first :: rest)).length
  have h2 := key (minLen (first :: rest))
  omega

/-- Running a non-empty ZipSequences family with enough fuel produces the
truncating transpose. -/
theorem zip_run_eq {α : Type} (first : List α) (rest : List (List α)) (fuel : Nat)
    (hfuel : (zipTranspose (first :: rest)).length ≤ fuel) :
    runCursor zipAdvance fuel (first :: rest) = zipTranspose (first :: rest) := by
  refine runCursor_eq_spec zipAdvance zipTranspose (fun s => s ≠ []) ?_ ?_ fuel _ (by simp) hfuel
  · intro s a s' hne h
    refine ⟨?_, zipTranspose_some_step s a s' hne h⟩
    have hlen := zipAdvance_length s
    rw [h] at hlen
    intro hc
    rw [hc] at hlen
    simp at hlen
    exact hne (List.eq_nil_of_length_eq_zero hlen.symm)
  · intro s s' hne h
    exact zipTranspose_none_step s s' hne h

/-! ## Flatten lemmas -/

theorem dfsLeaves_eq_generator : ∀ l : List PyVal, dfsLeaves l = flatten_iterator_generator l := by
  intro l
  induction l using dfsLeaves.induct with
  | case1 => rw [dfsLeaves, flatten_iterator_generator]
  | case2 l rest ih1 ih2 =>
    rw [dfsLeaves, flatten_iterator_generator, ih1, ih2]
  | case3 e rest hne ih =>
    cases e with
    | pylist l => exact absurd rfl (fun hc => hne l hc)
    | int x =>
      rw [dfsLeaves, flatten_iterator_generator, ih]
      all_goals exact hne
    | str x =>
      rw [dfsLeaves, flatten_iterator_generator, ih]
      all_goals exact hne
    | tuple x =>
      rw [dfsLeaves, flatten_iterator_generator, ih]
      all_goals exact hne

theorem generator_cons_leaf (e : PyVal) (rest : List PyVal)
    (hne : ∀ l, e ≠ PyVal.pylist l) :
    flatten_iterator_generator (e :: rest) = e :: flatten_iterator_generator rest := by
  cases e with
  | pylist l => exact absurd rfl (hne l)
  | int x =>
    rw [flatten_iterator_generator]
    all_goals exact fun l hl => hne l hl
  | str x =>
    rw [flatten_iterator_generator]
    all_goals exact fun l hl => hne l hl
  | tuple x =>
    rw [flatten_iterator_generator]
    all_goals exact fun l hl => hne l hl

theorem flattenNext_some (st : List FlatFrame) (a : PyVal) (st' : List FlatFrame)
    (h : flattenNext st = (some a, st')) : stackLeaves st = a :: stackLeaves st' := by
  induction st using flattenNext.induct with
  | case1 =>
    rw [flattenNext] at h
    simp at h
  | case2 cl i rest hlt l hel ih =>
    rw [flattenNext] at h
    simp only [hlt, dite_true] at h
    split at h
    · rename_i l2 hel2
      rw [hel] at hel2
      injection hel2 with hll
      subst hll
      have heq := ih h
      have hd : cl.drop i = cl.get ⟨i, hlt⟩ :: cl.drop (i + 1) :=
        List.drop_eq_getElem_cons hlt
      rw [hel] at hd
      simp only [stackLeaves, List.drop_zero] at heq ⊢
      rw [hd, flatten_iterator_generator]
      simp only [List.append_assoc] at heq ⊢
      exact heq
    · rename_i hne
      exact absurd hel (hne l)
  | case3 cl i rest hlt hne =>
    rw [flattenNext] at h
    simp only [hlt, dite_true, Prod.mk.injEq, Option.some.injEq] at h
    rcases h with ⟨ha, hst⟩
    have hd : cl.drop i = cl.get ⟨i, hlt⟩ :: cl.drop (i + 1) :=
      List.drop_eq_getElem_cons hlt
    simp only [stackLeaves]
    rw [hd, generator_cons_leaf _ _ (fun l hl => hne l hl), ← ha, ← hst]
    simp [stackLeaves]
  | case4 cl i rest hlt ih =>
    rw [flattenNext] at h
    simp only [hlt, dite_false] at h
    have heq := ih h
    have hd : cl.drop i = [] := List.drop_eq_nil_of_le (by omega)
    simp only [stackLeaves] at heq ⊢
    rw [hd, flatten_iterator_generator]
    simpa using heq

theorem flattenNext_none (st : List FlatFrame) (st' : List FlatFrame)
    (h : flattenNext st = (none, st')) : stackLeaves st = [] ∧ st' = [] := by
  induction st using flattenNext.induct with
  | case1 =>
    rw [flattenNext] at h
    simp at h
    simp [stackLeaves, h]
  | case2 cl i rest hlt l hel ih =>
    rw [flattenNext] at h
    simp only [hlt, dite_true] at h
    split at h
    · rename_i l2 hel2
      rw [hel] at hel2
      injection hel2 with hll
      subst hll
      have heq := ih h
      have hd : cl.drop i = cl.get ⟨i, hlt⟩ :: cl.drop (i + 1) :=
        List.drop_eq_getElem_cons hlt
      rw [hel] at hd
      refine ⟨?_, heq.2⟩
      have h1 := heq.1
      simp only [stackLeaves, List.drop_zero] at h1 ⊢
      rw [hd, flatten_iterator_generator]
      simp only [List.append_assoc]
      simpa using h1
    · rename_i hne
      exact absurd hel (hne l)
  | case3 cl i rest hlt hne =>
    rw [flattenNext] at h
    simp only [hlt, dite_true] at h
    simp at h
  | case4 cl i rest hlt ih =>
    rw [flattenNext] at h
    simp only [hlt, dite_false] at h
    have heq := ih h
    have hd : cl.drop i = [] := List.drop_eq_nil_of_le (by omega)
    refine ⟨?_, heq.2⟩
    simp only [stackLeaves]
    rw [hd, flatten_iterator_generator]
    simpa using heq.1

/-- Exhaustion of FlattenIterator is idempotent: an exhausting call empties
the stack, and the empty stack exhausts. -/
theorem flattenNext_idempotent (st st' : List FlatFrame)
    (h : flattenNext st = (none, st')) : (flattenNext st').1 = none := by
  rw [(flattenNext_none st st' h).2]
  rw [flattenNext]

/-- Running a FlattenIterator with enough fuel produces exactly the output of
the recursive generator. -/
theorem flatten_run_eq (nested_list : List PyVal) (fuel : Nat)
    (hfuel : (flatten_iterator_generator nested_list).length ≤ fuel) :
    FlattenIterator.run fuel nested_list = flatten_iterator_generator nested_list := by
  have hinit : stackLeaves (FlattenIterator.init nested_list) =
      flatten_iterator_generator nested_list := by
    rw [FlattenIterator.init, stackLeaves, stackLeaves, List.drop_zero]
    simp
  have := runCursor_eq_spec flattenNext stackLeaves (fun _ => True)
    (fun s a s' _ h => ⟨trivial, flattenNext_some s a s' h⟩)
    (fun s s' _ h => (flattenNext_none s s' h).1)
    fuel (FlattenIterator.init nested_list) trivial (by rw [hinit]; exact hfuel)
  rw [FlattenIterator.run, this, hinit]

/-! ## Sieve lemmas -/

theorem foldl_invariant {β γ : Type} (f : β → γ → β) (P : β → Prop) :
    ∀ (js : List γ) (init : β), P init → (∀ acc x, x ∈ js → P acc → P (f acc x)) →
      P (js.foldl f init) := by
  intro js
  induction js with
  | nil => intro init h _; exact h
  | cons x rest ih =>
    intro init h hstep
    rw [List.foldl_cons]
    exact ih (f init x) (hstep init x (by simp) h)
      (fun acc y hy hacc => hstep acc y (by simp [hy]) hacc)

theorem getD_set_false (l : List Bool) (j m : Nat) (h : l.getD m false = false) :
    (l.set j false).getD m false = false := by
  rcases eq_or_ne j m with rfl | hne
  · rcases Nat.lt_or_ge j l.length with hlt | hge
    · rw [List.getD_eq_getElem?_getD, List.getElem?_set_self' , List.getElem?_eq_getElem hlt]
      simp
    · rw [List.getD_eq_getElem?_getD, List.getElem?_eq_none (by simpa using hge)]
      rfl
  · rw [List.getD_eq_getElem?_getD, List.getElem?_set_ne hne, ← List.getD_eq_getElem?_getD]
    exact h

theorem getD_set_false_self (l : List Bool) (m : Nat) :
    (l.set m false).getD m false = false := by
  rcases Nat.lt_or_ge m l.length with hlt | hge
  · rw [List.getD_eq_getElem?_getD, List.getElem?_set_self', List.getElem?_eq_getElem hlt]
    simp
  · rw [List.getD_eq_getElem?_getD, List.getElem?_eq_none (by simpa using hge)]
    rfl

theorem getD_set_ne (l : List Bool) (j m : Nat) (b : Bool) (hne : j ≠ m) :
    (l.set j b).getD m false = l.getD m false := by
  rw [List.getD_eq_getElem?_getD, List.getElem?_set_ne hne, ← List.getD_eq_getElem?_getD]

theorem strikeList_length (l : List Bool) (js : List Nat) :
    (strikeList l js).length = l.length := by
  rw [strikeList]
  induction js generalizing l with
  | nil => rfl
  | cons j rest ih => simpa using ih (l.set j false)

theorem strikeList_getD_false (l : List Bool) (js : List Nat) (m : Nat)
    (h : l.getD m false = false) : (strikeList l js).getD m false = false := by
  rw [strikeList]
  induction js generalizing l with
  | nil => exact h
  | cons j rest ih => exact ih (l.set j false) (getD_set_false l j m h)

theorem strikeList_getD_ne (l : List Bool) (js : List Nat) (m : Nat)
    (h : m ∉ js) : (strikeList l js).getD m false = l.getD m false := by
  rw [strikeList]
  induction js generalizing l with
  | nil => rfl
  | cons j rest ih =>
    rw [List.foldl_cons]
    have hjm : j ≠ m := fun hc => h (by simp [hc])
    rw [ih (l.set j false) (fun hc => h (by simp [hc])), getD_set_ne l j m false hjm]

theorem strikeList_getD_mem (js : List Nat) :
    ∀ (l : List Bool) (m : Nat), m ∈ js → (strikeList l js).getD m false = false := by
  induction js with
  | nil =>
    intro l m hmem
    simp at hmem
  | cons j rest ih =>
    intro l m hmem
    rw [strikeList, List.foldl_cons]
    have hfold : List.foldl (fun acc j => acc.set j false) (l.set j false) rest =
        strikeList (l.set j false) rest := rfl
    rw [hfold]
    rcases List.mem_cons.mp hmem with rfl | hmem2
    · rcases Decidable.em (m ∈ rest) with hr | hr
      · exact ih (l.set m false) m hr
      · rw [strikeList_getD_ne (l.set m false) rest m hr, getD_set_false_self]
    · exact ih (l.set j false) m hmem2

theorem mem_pyRange (a b s m : Nat) (hs : 0 < s) :
    m ∈ pyRange a b s ↔ ∃ k, m = a + s * k ∧ m < b := by
  rw [pyRange, List.mem_range']
  constructor
  · rintro ⟨i, hi, rfl⟩
    refine ⟨i, rfl, ?_⟩
    have h2 : (i + 1) * s ≤ b - a + s - 1 := (Nat.le_div_iff_mul_le hs).mp hi
    have h3 : i * s + s ≤ b - a + s - 1 := by rw [Nat.succ_mul] at h2; exact h2
    have h4 : s * i = i * s := Nat.mul_comm s i
    omega
  · rintro ⟨k, rfl, hlt⟩
    refine ⟨k, ?_, rfl⟩
    rw [Nat.lt_iff_add_one_le, Nat.le_div_iff_mul_le hs, Nat.succ_mul]
    have h4 : s * k = k * s := Nat.mul_comm s k
    omega

theorem mem_pyRange_one (a b m : Nat) : m ∈ pyRange a b 1 ↔ a ≤ m ∧ m < b := by
  rw [mem_pyRange a b 1 m Nat.one_pos]
  constructor
  · rintro ⟨k, rfl, h⟩
    omega
  · rintro ⟨h1, h2⟩
    exact ⟨m - a, by omega, h2⟩

theorem pyRange_one_pairwise (a b : Nat) : List.Pairwise (· < ·) (pyRange a b 1) := by
  rw [pyRange]
  exact List.pairwise_lt_range' a _ 1 (by omega)

theorem sieveInit_prime_true (n p : Nat) (hp : Nat.Prime p) (hlt : p < n) :
    (sieveInit n).getD p false = true := by
  have h2 : 2 ≤ p := hp.two_le
  rw [sieveInit, getD_set_ne _ 1 p _ (by omega), getD_set_ne _ 0 p _ (by omega)]
  rw [List.getD_eq_getElem?_getD, List.getElem?_replicate]
  simp [hlt]

theorem sieveStep_length (n : Nat) (acc : List Bool) (i : Nat) :
    (sieveStep n acc i).length = acc.length := by
  rw [sieveStep]
  split
  · exact strikeList_length acc _
  · rfl

theorem sieveStep_prime_true (n : Nat) (i : Nat) (hi : 2 ≤ i) (acc : List Bool)
    (hacc : ∀ p, Nat.Prime p → p < n → acc.getD p false = true)
    (p : Nat) (hp : Nat.Prime p) (hlt : p < n) :
    (sieveStep n acc i).getD p false = true := by
  rw [sieveStep]
  split
  · have hnmem : p ∉ pyRange (i * i) n i := by
      intro hmem
      obtain ⟨k, hk, -⟩ := (mem_pyRange (i * i) n i p (by omega)).mp hmem
      have hdvd : i ∣ p := ⟨i + k, by rw [hk]; ring⟩
      rcases hp.eq_one_or_self_of_dvd i hdvd with h1 | h1
      · omega
      · subst h1
        have hsq : 2 * i ≤ i * i := Nat.mul_le_mul_right i hi
        omega
    rw [strikeList_getD_ne acc _ p hnmem]
    exact hacc p hp hlt
  · exact hacc p hp hlt

theorem sieve_length (n : Nat) : (sieve n).length = n := by
  rw [sieve]
  exact foldl_invariant (sieveStep n) (fun acc => acc.length = n) _ _ (by simp [sieveInit])
    (fun acc x _ h => by
      show (sieveStep n acc x).length = n
      rw [sieveStep_length]
      exact h)

theorem sieve_prime_true (n p : Nat) (hp : Nat.Prime p) (hlt : p < n) :
    (sieve n).getD p false = true := by
  rw [sieve]
  exact foldl_invariant (sieveStep n)
    (fun acc => ∀ q, Nat.Prime q → q < n → acc.getD q false = true) _ _
    (fun q hq hql => sieveInit_prime_true n q hq hql)
    (fun acc i hi hacc q hq hql =>
      sieveStep_prime_true n i ((mem_pyRange_one 2 _ i).mp hi).1 acc hacc q hq hql)
    p hp hlt

theorem sieve_composite_false (n m : Nat) (h2 : 2 ≤ m) (hlt : m < n)
    (hnp : ¬ Nat.Prime m) : (sieve n).getD m false = false := by
  have hp : Nat.Prime m.minFac := Nat.minFac_prime (by omega)
  have hdvd : m.minFac ∣ m := Nat.minFac_dvd m
  have hsq : m.minFac * m.minFac ≤ m := by
    have := Nat.minFac_sq_le_self (by omega) hnp
    rwa [pow_two] at this
  have hp2 : 2 ≤ m.minFac := hp.two_le
  have hple : m.minFac ≤ Nat.sqrt n := by
    rw [Nat.le_sqrt', pow_two]
    omega
  have hpmem : m.minFac ∈ pyRange 2 (Nat.sqrt n + 1) 1 :=
    (mem_pyRange_one _ _ _).mpr ⟨hp2, by omega⟩
  obtain ⟨l1, l2, hsplit⟩ := List.append_of_mem hpmem
  rw [sieve, hsplit, List.foldl_append, List.foldl_cons]
  have hs1 : (l1.foldl (sieveStep n) (sieveInit n)).length = n ∧
      ∀ q, Nat.Prime q → q < n → (l1.foldl (sieveStep n) (sieveInit n)).getD q false = true := by
    apply foldl_invariant (sieveStep n)
      (fun acc => acc.length = n ∧ ∀ q, Nat.Prime q → q < n → acc.getD q false = true) l1
      (sieveInit n)
    · exact ⟨by simp [sieveInit], fun q hq hql => sieveInit_prime_true n q hq hql⟩
    · intro acc i hi hacc
      have hi2 : 2 ≤ i := by
        have hmem : i ∈ pyRange 2 (Nat.sqrt n + 1) 1 := by
          rw [hsplit]
          exact List.mem_append_left _ hi
        exact ((mem_pyRange_one _ _ _).mp hmem).1
      exact ⟨by rw [sieveStep_length]; exact hacc.1,
        fun q hq hql => sieveStep_prime_true n i hi2 acc hacc.2 q hq hql⟩
  have hsqrtlt : Nat.sqrt n < n := Nat.sqrt_lt_self (by omega)
  have hptrue : (l1.foldl (sieveStep n) (sieveInit n)).getD m.minFac false = true :=
    hs1.2 m.minFac hp (by omega)
  have hstep : sieveStep n (l1.foldl (sieveStep n) (sieveInit n)) m.minFac =
      strikeList (l1.foldl (sieveStep n) (sieveInit n)) (pyRange (m.minFac * m.minFac) n m.minFac) := by
    rw [sieveStep, hptrue]
    simp
  rw [hstep]
  have hmmem : m ∈ pyRange (m.minFac * m.minFac) n m.minFac := by
    rw [mem_pyRange _ _ _ _ (by omega)]
    have hd2 : m.minFac ∣ m - m.minFac * m.minFac := Nat.dvd_sub' hdvd ⟨m.minFac, rfl⟩
    obtain ⟨k, hk⟩ := hd2
    exact ⟨k, by omega, hlt⟩
  have hmfalse :
      (strikeList (l1.foldl (sieveStep n) (sieveInit n))
        (pyRange (m.minFac * m.minFac) n m.minFac)).getD m false = false :=
    strikeList_getD_mem _ _ m hmmem
  apply foldl_invariant (sieveStep n) (fun acc => acc.getD m false = false) l2 _ hmfalse
  intro acc i _ hacc
  rw [sieveStep]
  split
  · exact strikeList_getD_false acc _ m hacc
  · exact hacc

theorem generate_primes_nil (n : Nat) (h : n ≤ 1) : generate_primes n = [] := by
  rw [generate_primes, if_pos h]

theorem mem_generate_primes (n v : Nat) :
    v ∈ generate_primes n ↔ (v = 1 ∧ 2 ≤ n) ∨ (Nat.Prime v ∧ v < n) := by
  rw [generate_primes]
  rcases Nat.lt_or_ge n 2 with h1 | h1
  · rw [if_pos (by omega)]
    simp only [List.not_mem_nil, false_iff]
    rintro (⟨-, hn⟩ | ⟨hp, hvn⟩)
    · omega
    · have := hp.two_le
      omega
  · rcases Nat.lt_or_ge n 3 with h2 | h2
    · have hn2 : n = 2 := by omega
      subst hn2
      rw [if_neg (by omega), if_pos (by omega)]
      simp only [List.mem_singleton]
      constructor
      · intro h
        exact Or.inl ⟨h, by omega⟩
      · rintro (⟨h, -⟩ | ⟨hp, hvn⟩)
        · exact h
        · have := hp.two_le
          omega
    · rw [if_neg (by omega), if_neg (by omega)]
      simp only [List.mem_cons, List.mem_filter]
      constructor
      · rintro (rfl | ⟨hmem, hsieve⟩)
        · exact Or.inl ⟨rfl, by omega⟩
        · obtain ⟨hv2, hvn⟩ := (mem_pyRange_one 2 n v).mp hmem
          right
          refine ⟨?_, hvn⟩
          by_contra hnp
          rw [sieve_composite_false n v hv2 hvn hnp] at hsieve
          simp at hsieve
      · rintro (⟨rfl, -⟩ | ⟨hp, hvn⟩)
        · exact Or.inl rfl
        · exact Or.inr ⟨(mem_pyRange_one 2 n v).mpr ⟨hp.two_le, hvn⟩,
            sieve_prime_true n v hp hvn⟩

theorem generate_primes_sorted (n : Nat) :
    List.Pairwise (· < ·) (generate_primes n) := by
  rw [generate_primes]
  rcases Nat.lt_or_ge n 2 with h1 | h1
  · rw [if_pos (by omega)]
    exact List.Pairwise.nil
  · rcases Nat.lt_or_ge n 3 with h2 | h2
    · rw [if_neg (by omega), if_pos (by omega)]
      simp
    · rw [if_neg (by omega), if_neg (by omega)]
      refine List.pairwise_cons.mpr ⟨?_, ?_⟩
      · intro v hv
        have hmem := (List.mem_filter.mp hv).1
        have := (mem_pyRange_one 2 n v).mp hmem
        omega
      · exact (pyRange_one_pairwise 2 n).sublist (List.filter_sublist _)

theorem generate_primes_head (n : Nat) (h : 2 ≤ n) :
    (generate_primes n).head? = some 1 := by
  rw [generate_primes, if_neg (by omega)]
  rcases Nat.lt_or_ge n 3 with h2 | h2
  · rw [if_pos (by omega)]
    rfl
  · rw [if_neg (by omega)]
    rfl

/-! ## Combination lemmas -/

theorem lexCombinations_length {α : Type} :
    ∀ (k : Nat) (l : List α), (lexCombinations k l).length = l.length.choose k := by
  intro k l
  induction l generalizing k with
  | nil =>
    cases k with
    | zero => rw [lexCombinations]; simp
    | succ k => rw [lexCombinations]; simp
  | cons a rest ih =>
    cases k with
    | zero => rw [lexCombinations]; simp
    | succ k =>
      rw [lexCombinations]
      simp only [List.length_append, List.length_map, ih k, ih (k + 1), List.length_cons]
      rw [Nat.choose_succ_succ]

theorem mem_lexCombinations {α : Type} :
    ∀ (k : Nat) (l : List α) (c : List α),
      c ∈ lexCombinations k l ↔ c.Sublist l ∧ c.length = k := by
  intro k l
  induction l generalizing k with
  | nil =>
    intro c
    cases k with
    | zero =>
      rw [lexCombinations]
      simp [List.length_eq_zero]
    | succ k =>
      rw [lexCombinations]
      constructor
      · intro h
        simp at h
      · rintro ⟨hsub, hlen⟩
        rw [List.sublist_nil.mp hsub] at hlen
        simp at hlen
  | cons a rest ih =>
    intro c
    cases k with
    | zero =>
      rw [lexCombinations]
      simp only [List.mem_singleton, List.length_eq_zero]
      constructor
      · rintro rfl
        exact ⟨List.nil_sublist _, rfl⟩
      · rintro ⟨-, h⟩
        exact h
    | succ k =>
      rw [lexCombinations]
      simp only [List.mem_append, List.mem_map]
      constructor
      · rintro (⟨c', hc', rfl⟩ | hmem)
        · have hc := (ih k c').mp hc'
          exact ⟨List.sublist_cons_iff.mpr (Or.inr ⟨c', rfl, hc.1⟩), by simp [hc.2]⟩
        · have hc := (ih (k + 1) c).mp hmem
          exact ⟨List.sublist_cons_iff.mpr (Or.inl hc.1), hc.2⟩
      · rintro ⟨hsub, hlen⟩
        rcases List.sublist_cons_iff.mp hsub with hsub' | ⟨r, rfl, hr⟩
        · exact Or.inr ((ih (k + 1) c).mpr ⟨hsub', hlen⟩)
        · exact Or.inl ⟨r, (ih k r).mpr ⟨hr, by simpa using hlen⟩, rfl⟩

theorem combineFor_eq {α : Type} (sequence : List α) (k : Nat) :
    ∀ (d i : Nat) (current : List α), sequence.length - i ≤ d → current.length < k →
      combineFor sequence k i current =
        (lexCombinations (k - current.length) (sequence.drop i)).map
          (fun c => current ++ c) := by
  intro d
  induction d with
  | zero =>
    intro i current hd hck
    rw [combineFor, dif_neg (by omega : ¬ i < sequence.length)]
    rw [List.drop_eq_nil_of_le (by omega : sequence.length ≤ i)]
    have hpos : k - current.length = (k - current.length - 1) + 1 := by omega
    rw [hpos, lexCombinations]
    rfl
  | succ d ih =>
    intro i current hd hck
    rcases Nat.lt_or_ge i sequence.length with hlt | hge
    · rw [combineFor, dif_pos hlt]
      have hdrop : sequence.drop i = sequence.get ⟨i, hlt⟩ :: sequence.drop (i + 1) :=
        List.drop_eq_getElem_cons hlt
      have hm : k - current.length = (k - (current.length + 1)) + 1 := by omega
      rw [hdrop, hm, lexCombinations, List.map_append, List.map_map]
      congr 1
      · rw [combine]
        rcases Nat.lt_or_ge (current.length + 1) k with hck2 | hck2
        · rw [if_neg (by simp; omega)]
          rw [ih (i + 1) (current ++ [sequence.get ⟨i, hlt⟩]) (by omega) (by simp; omega)]
          simp only [List.length_append, List.length_singleton]
          apply List.map_congr_left
          intro c hc
          simp
        · have hk : (current ++ [sequence.get ⟨i, hlt⟩]).length = k := by simp; omega
          rw [if_pos hk]
          have hz : k - (current.length + 1) = 0 := by omega
          rw [hz, lexCombinations]
          simp
      · rw [← hm]
        exact ih (i + 1) current (by omega) hck
    · rw [combineFor, dif_neg (by omega : ¬ i < sequence.length)]
      rw [List.drop_eq_nil_of_le (by omega : sequence.length ≤ i)]
      have hpos : k - current.length = (k - current.length - 1) + 1 := by omega
      rw [hpos, lexCombinations]
      rfl

theorem combine_eq {α : Type} (sequence : List α) (k : Nat) (hk : 0 < k) :
    combine sequence k 0 [] = lexCombinations k sequence := by
  rw [combine, if_neg (by simp; omega)]
  rw [combineFor_eq sequence k sequence.length 0 [] (by omega) (by simpa using hk)]
  simp

theorem generate_combinations_eq {α : Type} (sequence : List α) (k : Int) (hk : 0 < k)
    (hkn : k ≤ (sequence.length : Int)) :
    generate_combinations sequence k = lexCombinations k.toNat sequence := by
  rw [generate_combinations, if_neg (by push_neg; exact ⟨hkn, hk⟩)]
  exact combine_eq sequence k.toNat (by omega)

/-! # Claim theorems -/

/-- C1: the claim says a ZipSequences cursor or zip_sequences generator over
zero input sequences signals exhaustion immediately; the code instead returns
the empty tuple on every advance: with no iterators the collection loop runs
zero times and tuple(result) = () is produced, so both forms are an infinite
stream of empty tuples and never signal exhaustion. -/
theorem zipSequences_empty_family_never_exhausts {α : Type} :
    (zipAdvance ([] : List (List α))).1 = some [] ∧
    (∀ fuel : Nat, ZipSequences.run fuel ([] : List (List α)) = List.replicate fuel []) ∧
    (∀ fuel : Nat, zip_sequencesRun fuel ([] : List (List α)) = List.replicate fuel []) := by
  have key : ∀ fuel : Nat,
      runCursor zipAdvance fuel ([] : List (List α)) = List.replicate fuel [] := by
    intro fuel
    induction fuel with
    | zero => rfl
    | succ m ih => simp [runCursor, zipAdvance, ih, List.replicate_succ]
  exact ⟨rfl, key, key⟩

/-- C2: generate_primes n is strictly ascending and its members are exactly
the value 1 (present iff n ≥ 2, and then first) together with the primes
below n; every produced value v ≥ 2 has no divisor in [2, v), and for
n ≤ 1 the output is empty. -/
theorem generate_primes_correct (n : Nat) :
    List.Sorted (· < ·) (generate_primes n) ∧
    (∀ v, v ∈ generate_primes n ↔ (v = 1 ∧ 2 ≤ n) ∨ (Nat.Prime v ∧ 2 ≤ v ∧ v < n)) ∧
    (2 ≤ n → (generate_primes n).head? = some 1) ∧
    (n ≤ 1 → generate_primes n = []) ∧
    (∀ v ∈ generate_primes n, 2 ≤ v → ∀ d, 2 ≤ d → d < v → ¬ d ∣ v) := by
  refine ⟨generate_primes_sorted n, ?_, generate_primes_head n, generate_primes_nil n, ?_⟩
  · intro v
    rw [mem_generate_primes]
    constructor
    · rintro (h | ⟨hp, hlt⟩)
      · exact Or.inl h
      · exact Or.inr ⟨hp, hp.two_le, hlt⟩
    · rintro (h | ⟨hp, -, hlt⟩)
      · exact Or.inl h
      · exact Or.inr ⟨hp, hlt⟩
  · intro v hv h2 d hd2 hdv hdvd
    rcases (mem_generate_primes n v).mp hv with ⟨rfl, -⟩ | ⟨hp, -⟩
    · omega
    · rcases hp.eq_one_or_self_of_dvd d hdvd with h | h <;> omega

/-- Witness for C2 at n = 8: the head is 1 and the full output is
[1, 2, 3, 5, 7]. -/
theorem generate_primes_correct_witness :
    (generate_primes 8).head? = some 1 ∧ generate_primes 8 = [1, 2, 3, 5, 7] := by
  refine ⟨(generate_primes_correct 8).2.2.1 (by norm_num), ?_⟩
  have hsq : Nat.sqrt 8 = 2 := by
    have h1 : 2 ≤ Nat.sqrt 8 := by
      rw [Nat.le_sqrt']
      norm_num
    have h2 : ¬ 3 ≤ Nat.sqrt 8 := by
      rw [Nat.le_sqrt']
      norm_num
    omega
  rw [generate_primes, if_neg (by norm_num), if_neg (by norm_num), sieve, hsq]
  decide

/-- C3: for 0 < k ≤ n, generate_combinations enumerates exactly the
k-element subsequences of the input (the strictly increasing index
selections), in lexicographic order of the chosen indices, and there are
C(n, k) of them. -/
theorem generate_combinations_correct {α : Type} (sequence : List α) (k : Int)
    (hk : 0 < k) (hkn : k ≤ (sequence.length : Int)) :
    generate_combinations sequence k = lexCombinations k.toNat sequence ∧
    (generate_combinations sequence k).length = sequence.length.choose k.toNat ∧
    (∀ c, c ∈ generate_combinations sequence k ↔ c.Sublist sequence ∧ c.length = k.toNat) := by
  have he := generate_combinations_eq sequence k hk hkn
  refine ⟨he, by rw [he, lexCombinations_length], fun c => ?_⟩
  rw [he]
  exact mem_lexCombinations k.toNat sequence c

/-- Witness for C3: combinations of size 2 from [1, 2, 3] are
[1,2], [1,3], [2,3] in that order. -/
theorem generate_combinations_correct_witness :
    generate_combinations ([1, 2, 3] : List Nat) 2 = lexCombinations 2 [1, 2, 3] ∧
    lexCombinations 2 ([1, 2, 3] : List Nat) = [[1, 2], [1, 3], [2, 3]] :=
  ⟨(generate_combinations_correct [1, 2, 3] 2 (by decide) (by decide)).1, by decide⟩

/-- C4: for k ≤ 0 or k > n (k is a Python int, possibly negative) the
combination enumeration silently produces an empty sequence; the embedding is
a total function, mirroring that the Python generator raises nothing. -/
theorem generate_combinations_invalid_k {α : Type} (sequence : List α) (k : Int)
    (h : k ≤ 0 ∨ (sequence.length : Int) < k) :
    generate_combinations sequence k = [] := by
  rw [generate_combinations]
  rcases h with h | h
  · rw [if_pos (Or.inr h)]
  · rw [if_pos (Or.inl h)]

/-- Witness for C4 at k = 0, k = 3 > n = 2, and k = -2. -/
theorem generate_combinations_invalid_k_witness :
    generate_combinations ([1, 2, 3] : List Nat) 0 = [] ∧
    generate_combinations ([1, 2] : List Nat) 3 = [] ∧
    generate_combinations ([1, 2, 3] : List Nat) (-2) = [] :=
  ⟨generate_combinations_invalid_k [1, 2, 3] 0 (by decide),
   generate_combinations_invalid_k [1, 2] 3 (by decide),
   generate_combinations_invalid_k [1, 2, 3] (-2) (by decide)⟩

/-- C5: for one or more finite input sequences, both ZipSequences and
zip_sequences produce exactly minLen tuples, the j-th output being the
ordered selection of the j-th elements of the inputs, and stop at the first
exhausted component. -/
theorem zipSequences_correct {α : Type} (first : List α) (rest : List (List α))
    (fuel : Nat) (hfuel : minLen (first :: rest) ≤ fuel) :
    ZipSequences.run fuel (first :: rest) = zipTranspose (first :: rest) ∧
    zip_sequencesRun fuel (first :: rest) = zipTranspose (first :: rest) ∧
    (zipTranspose (first :: rest)).length = minLen (first :: rest) ∧
    (∀ j : Nat, (zipTranspose (first :: rest))[j]? = selectAll (first :: rest) j) := by
  have hlen : (zipTranspose (first :: rest)).length ≤ fuel := by
    rw [zipTranspose_length]
    exact hfuel
  exact ⟨zip_run_eq first rest fuel hlen, zip_run_eq first rest fuel hlen,
    zipTranspose_length first rest, zipTranspose_getElem first rest⟩

/-- Witness for C5: zipping [1,2,3], [4,5], [6] stops at the shortest input
and produces the single tuple (1, 4, 6). -/
theorem zipSequences_correct_witness :
    ZipSequences.run 5 ([[1, 2, 3], [4, 5], [6]] : List (List Nat)) =
      zipTranspose [[1, 2, 3], [4, 5], [6]] ∧
    zipTranspose ([[1, 2, 3], [4, 5], [6]] : List (List Nat)) = [[1, 4, 6]] :=
  ⟨(zipSequences_correct [1, 2, 3] [[4, 5], [6]] 5 (by decide)).1, by decide⟩

/-- C6: both ChainSequences and chain_sequences produce exactly the
concatenation of their inputs in order; zero sequences exhaust immediately
and empty inputs contribute nothing. -/
theorem chainSequences_correct {α : Type} (sequences : List (List α)) (fuel : Nat)
    (hfuel : sequences.flatten.length ≤ fuel) :
    ChainSequences.run fuel sequences = sequences.flatten ∧
    chain_sequences sequences = sequences.flatten ∧
    (chainNext (ChainSequences.init ([] : List (List α)))).1 = none ∧
    chain_sequences ([[], [1], []] : List (List Nat)) = [1] := by
  refine ⟨chain_run_eq sequences fuel hfuel,
    chain_sequences_eq_flatten sequences, ?_, by decide⟩
  rw [ChainSequences.init, chainNext]
  norm_num

/-- Witness for C6: chaining [1,2,3], [4], [5] produces [1,2,3,4,5]. -/
theorem chainSequences_correct_witness :
    ChainSequences.run 6 ([[1, 2, 3], [4], [5]] : List (List Nat)) =
      ([[1, 2, 3], [4], [5]] : List (List Nat)).flatten :=
  (chainSequences_correct [[1, 2, 3], [4], [5]] 6 (by decide)).1

/-- C7: the stack-based FlattenIterator yields exactly the leaf elements in
depth-first, left-to-right order; an empty outer list and a nesting of only
empty lists yield nothing, and [1,2,[3,[4],5]] yields 1,2,3,4,5. -/
theorem flattenIterator_dfs_leaves (nested_list : List PyVal) (fuel : Nat)
    (hfuel : (dfsLeaves nested_list).length ≤ fuel) :
    FlattenIterator.run fuel nested_list = dfsLeaves nested_list ∧
    FlattenIterator.run fuel ([] : List PyVal) = [] ∧
    FlattenIterator.run fuel [PyVal.pylist [PyVal.pylist []]] = [] ∧
    dfsLeaves [PyVal.int 1, PyVal.int 2,
        PyVal.pylist [PyVal.int 3, PyVal.pylist [PyVal.int 4], PyVal.int 5]] =
      [PyVal.int 1, PyVal.int 2, PyVal.int 3, PyVal.int 4, PyVal.int 5] := by
  refine ⟨?_, ?_, ?_, by simp [dfsLeaves]⟩
  · rw [flatten_run_eq nested_list fuel
      (by rw [← dfsLeaves_eq_generator]; exact hfuel), dfsLeaves_eq_generator]
  · rw [flatten_run_eq [] fuel (by simp [flatten_iterator_generator])]
    rw [flatten_iterator_generator]
  · have hg : flatten_iterator_generator [PyVal.pylist [PyVal.pylist []]] = [] := by
      simp [flatten_iterator_generator]
    rw [flatten_run_eq _ fuel (by rw [hg]; simp), hg]

/-- Witness for C7 on the example [1,2,[3,[4],5]] with fuel 5. -/
theorem flattenIterator_dfs_leaves_witness :
    FlattenIterator.run 5 [PyVal.int 1, PyVal.int 2,
        PyVal.pylist [PyVal.int 3, PyVal.pylist [PyVal.int 4], PyVal.int 5]] =
      dfsLeaves [PyVal.int 1, PyVal.int 2,
        PyVal.pylist [PyVal.int 3, PyVal.pylist [PyVal.int 4], PyVal.int 5]] :=
  (flattenIterator_dfs_leaves _ 5 (by simp [dfsLeaves])).1

/-- C8: the stack-based FlattenIterator and the recursive generator produce
identical outputs on every nested structure: the same elements in the same
order, with exhaustion at the same point (both outputs are the same finite
list). -/
theorem flatten_forms_equivalent (nested_list : List PyVal) (fuel : Nat)
    (hfuel : (flatten_iterator_generator nested_list).length ≤ fuel) :
    FlattenIterator.run fuel nested_list = flatten_iterator_generator nested_list :=
  flatten_run_eq nested_list fuel hfuel

/-- Witness for C8 on a nested example with fuel 6. -/
theorem flatten_forms_equivalent_witness :
    FlattenIterator.run 6 [PyVal.pylist [PyVal.int 1, PyVal.int 2],
        PyVal.pylist [PyVal.int 3], PyVal.int 4] =
      flatten_iterator_generator [PyVal.pylist [PyVal.int 1, PyVal.int 2],
        PyVal.pylist [PyVal.int 3], PyVal.int 4] :=
  flatten_forms_equivalent _ 6 (by simp [flatten_iterator_generator])

/-- C9: for all three adapter cursors, exhaustion is a terminal, idempotent
state: an advance request that signals exhaustion leaves the object in a
state from which every further advance request also signals exhaustion. -/
theorem exhaustion_idempotent {α : Type} :
    (∀ s s' : ChainState α, chainNext s = (none, s') → (chainNext s').1 = none) ∧
    (∀ its its' : List (List α), zipAdvance its = (none, its') → (zipAdvance its').1 = none) ∧
    (∀ st st' : List FlatFrame, flattenNext st = (none, st') → (flattenNext st').1 = none) :=
  ⟨chainNext_idempotent, zipAdvance_idempotent, flattenNext_idempotent⟩

/-- Witness for C9 on concrete exhausting calls of each adapter. -/
theorem exhaustion_idempotent_witness :
    (chainNext (⟨[[1]], 1, []⟩ : ChainState Nat)).1 = none ∧
    (zipAdvance [([] : List Nat)]).1 = none ∧
    (flattenNext ([] : List FlatFrame)).1 = none :=
  ⟨(exhaustion_idempotent (α := Nat)).1 ⟨[[1]], 0, []⟩ ⟨[[1]], 1, []⟩ (by
      rw [chainNext]
      norm_num),
   (exhaustion_idempotent (α := Nat)).2.1 [[]] [[]] rfl,
   (exhaustion_idempotent (α := Nat)).2.2 [] [] (by rw [flattenNext])⟩

/-- C10: both flatten forms recognise exactly list values as containers: a
tuple or string element is yielded whole as a single leaf and never
decomposed, while a list element is decomposed and never yielded itself. -/
theorem flatten_only_lists_are_containers :
    (∀ (t : List PyVal) (rest : List PyVal),
      flatten_iterator_generator (PyVal.tuple t :: rest) =
        PyVal.tuple t :: flatten_iterator_generator rest) ∧
    (∀ (s : String) (rest : List PyVal),
      flatten_iterator_generator (PyVal.str s :: rest) =
        PyVal.str s :: flatten_iterator_generator rest) ∧
    (∀ (l rest : List PyVal),
      flatten_iterator_generator (PyVal.pylist l :: rest) =
        flatten_iterator_generator l ++ flatten_iterator_generator rest) ∧
    (∀ (t : List PyVal) (rest : List PyVal) (stack : List FlatFrame),
      flattenNext ((PyVal.tuple t :: rest, 0) :: stack) =
        (some (PyVal.tuple t), (PyVal.tuple t :: rest, 1) :: stack)) ∧
    (∀ (s : String) (rest : List PyVal) (stack : List FlatFrame),
      flattenNext ((PyVal.str s :: rest, 0) :: stack) =
        (some (PyVal.str s), (PyVal.str s :: rest, 1) :: stack)) ∧
    (∀ (l rest : List PyVal) (stack : List FlatFrame),
      flattenNext ((PyVal.pylist l :: rest, 0) :: stack) =
        flattenNext ((l, 0) :: (PyVal.pylist l :: rest, 1) :: stack)) ∧
    flatten_iterator_generator [PyVal.tuple [PyVal.int 1, PyVal.int 2]] =
      [PyVal.tuple [PyVal.int 1, PyVal.int 2]] := by
  refine ⟨?_, ?_, ?_, ?_, ?_, ?_, ?_⟩
  · intro t rest
    exact generator_cons_leaf (PyVal.tuple t) rest (by intro l h; cases h)
  · intro s rest
    exact generator_cons_leaf (PyVal.str s) rest (by intro l h; cases h)
  · intro l rest
    rw [flatten_iterator_generator]
  · intro t rest stack
    rw [flattenNext, dif_pos (by simp)]
    split
    · rename_i l2 hel2
      simp at hel2
    · simp
  · intro s rest stack
    rw [flattenNext, dif_pos (by simp)]
    split
    · rename_i l2 hel2
      simp at hel2
    · simp
  · intro l rest stack
    rw [flattenNext, dif_pos (by simp)]
    split
    · rename_i l2 hel2
      simp at hel2
      rw [← hel2]
    · rename_i hne
      have hget : (PyVal.pylist l :: rest).get ⟨0, by simp⟩ = PyVal.pylist l := by simp
      exact absurd hget (hne l)
  · rw [generator_cons_leaf _ _ (by intro l h; cases h), flatten_iterator_generator]
